import Mathlib

/-!
Verification of the semantic-retrieval subsystem of the study-planner
repository: the PDF chunking / header-detection / index-building pipeline
(`app/scripts/build_vector_store.py`) and the FAISS-backed retriever
(`app/rag_retriever.py`).  Texts are modelled as `List Char`; machine
floats never enter any verified property (distances are an opaque type
parameter); external library calls (PDF extraction, the sentence
embedder, the FAISS search) are opaque parameters constrained only by
their documented contracts.
-/

namespace StudyPlanner

/-! ### Python string primitives (ASCII model) -/

/-- Python whitespace characters (`str.strip`, `\s`), ASCII fragment:
space (32), tab (9), newline (10), vertical tab (11), form feed (12),
carriage return (13). -/
def isPySpace (c : Char) : Bool :=
  c.toNat = 32 || c.toNat = 9 || c.toNat = 10 || c.toNat = 11 ||
    c.toNat = 12 || c.toNat = 13

/-- Python `s.strip()`: drop whitespace from both ends. -/
def pyStrip (s : List Char) : List Char :=
  ((s.dropWhile isPySpace).reverse.dropWhile isPySpace).reverse

/-- Python `str.lower` on one character (ASCII range). -/
def pyLowerChar (c : Char) : Char :=
  if c.toNat ≥ 65 ∧ c.toNat ≤ 90 then Char.ofNat (c.toNat + 32) else c

/-- Python `s.lower()` (ASCII model). -/
def pyLower (s : List Char) : List Char := s.map pyLowerChar

/-- Python `s.replace(" ", "_")` (single-character replacement). -/
def pyUnderscore (s : List Char) : List Char :=
  s.map (fun c => if c = ' ' then '_' else c)

/-- Effective index of a Python slice bound `i` on a string of length `n`:
negative bounds count from the end, all bounds are clamped to `[0, n]`. -/
def pyBound (n : Nat) (i : Int) : Nat :=
  if i < 0 then ((n : Int) + i).toNat else min i.toNat n

/-- Python `s[a:b]` (step 1). -/
def pySlice (s : List Char) (a b : Int) : List Char :=
  (s.drop (pyBound s.length a)).take (pyBound s.length b - pyBound s.length a)

/-- Python `s.splitlines()` helper: `acc` holds the current line reversed. -/
def splitlinesAux : List Char → List Char → List (List Char)
  | [], acc => if acc = [] then [] else [acc.reverse]
  | '\r' :: '\n' :: rest, acc => acc.reverse :: splitlinesAux rest []
  | '\n' :: rest, acc => acc.reverse :: splitlinesAux rest []
  | '\r' :: rest, acc => acc.reverse :: splitlinesAux rest []
  | c :: rest, acc => splitlinesAux rest (c :: acc)

/-- Python `s.splitlines()` (line breaks `\n`, `\r`, `\r\n`). -/
def splitlines (s : List Char) : List (List Char) := splitlinesAux s []

/-! ### Chunker: `chunk_text_stream` (build_vector_store.py, lines 34-55)

The Python function is a generator driven by a `while` loop whose step can
fail to make progress for degenerate parameters, so the embedding is
fuel-indexed: `ChunkRun.out` is the list of chunks yielded within `fuel`
iterations and `ChunkRun.done` records whether the generator finished. -/

/-- Configured chunk size (`CHUNK_SIZE`). -/
def CHUNK_SIZE : Int := 1600

/-- Configured chunk overlap (`CHUNK_OVERLAP`). -/
def CHUNK_OVERLAP : Int := 0

/-- Configured batch threshold (`BATCH_MAX_CHUNKS`). -/
def BATCH_MAX_CHUNKS : Nat := 800

/-- Configured preview cap (`PREVIEW_LEN`). -/
def PREVIEW_LEN : Nat := 240

/-- Outcome of running the chunk generator for a bounded number of loop
iterations: the chunks yielded so far, and whether the loop exited. -/
structure ChunkRun where
  out : List (List Char)
  done : Bool
  deriving DecidableEq, Repr

/-- The `while start < n` loop of `chunk_text_stream`, one fuel per
iteration.  `txt` is the already-stripped text, `overlap` the already
negative-clamped overlap; `start` is the running window start. -/
def chunkLoop (txt : List Char) (size overlap : Int) : Nat → Int → ChunkRun
  | 0, _ => ⟨[], false⟩
  | fuel + 1, start =>
    let n : Int := txt.length
    if start < n then
      let end0 := start + size
      let e := if end0 > n then n else end0
      let piece := pySlice txt start e
      if e = n then ⟨[piece], true⟩
      else
        let start2 := e - overlap
        if start2 < 0 ∨ start2 ≥ n then ⟨[piece], true⟩
        else
          let r := chunkLoop txt size overlap fuel start2
          ⟨piece :: r.out, r.done⟩
    else ⟨[], true⟩

/-- The generator `chunk_text_stream(txt, size, overlap)` run for `fuel` loop iterations:
empty input yields nothing; otherwise the text is stripped, a negative
overlap is clamped to 0, and the windowing loop starts at 0. -/
def chunk_text_stream (txt : List Char) (size overlap : Int) (fuel : Nat) : ChunkRun :=
  if txt = [] then ⟨[], true⟩
  else
    let t := pyStrip txt
    let ov := if overlap < 0 then 0 else overlap
    chunkLoop t size ov fuel 0

/-! ### Header detection (build_vector_store.py, lines 32, 57-72, 81-95) -/

/-- Python `str.isupper()` (ASCII model): at least one cased character and
no lowercase character. -/
def pyIsUpper (s : List Char) : Bool :=
  s.any (fun c => c.isAlpha) && s.all (fun c => !c.isLower)

/-- The heuristic `likely_header(line)`: obvious headings — lines starting with
"chapter "/"section " case-insensitively, ALL-CAPS lines of length ≥ 8,
or ALL-CAPS-when-spaces-stripped lines containing a digit. -/
def likely_header (line : List Char) : Bool :=
  let s := pyStrip line
  if s = [] then false
  else
    ("chapter ".toList).isPrefixOf (pyLower s)
    || ("section ".toList).isPrefixOf (pyLower s)
    || (pyIsUpper s && 8 ≤ s.length)
    || (pyIsUpper (s.filter (fun c => c ≠ ' ')) && s.any (fun c => c.isDigit))

/-- A word character for the regex `\b` boundary: `[A-Za-z0-9_]`. -/
def isWordChar (c : Char) : Bool := c.isAlphanum || c = '_'

/-- The test `chapter_regex.match(s)` for `^\s*Chapter\s+\d+\b.*` with IGNORECASE:
optional whitespace, "chapter" case-insensitively, at least one whitespace
character, at least one digit, then a word boundary. -/
def chapterRegexMatch (s : List Char) : Bool :=
  let s1 := s.dropWhile isPySpace
  if ("chapter".toList).isPrefixOf (pyLower s1) then
    let s2 := s1.drop 7
    match s2 with
    | [] => false
    | c :: _ =>
      if isPySpace c then
        let s3 := s2.dropWhile isPySpace
        match s3 with
        | [] => false
        | d :: _ =>
          if d.isDigit then
            match s3.dropWhile Char.isDigit with
            | [] => true
            | b :: _ => !isWordChar b
          else false
      else false
  else false

/-- The header candidate a page contributes, as `main`'s first pass sees
it: the first line whose stripped form matches `chapter_regex` or
`likely_header`, guarded by Python truthiness (an empty match would not
update `last_header`). -/
def pageCand (pageText : List Char) : Option (List Char) :=
  ((splitlines pageText).map pyStrip).find?
    (fun s => chapterRegexMatch s || likely_header s) |>.bind
    (fun s => if s = [] then none else some s)

/-- The sentinel heading. -/
def unknownChapter : List Char := "Unknown Chapter".toList

/-- First pass of `main` (lines 81-95): walk the pages carrying
`last_header`, recording a heading per page. -/
def headerPassAux : List (List Char) → List Char → List (List Char)
  | [], _ => []
  | p :: ps, last =>
    let h := (pageCand p).getD last
    h :: headerPassAux ps h

/-- The mapping `chapter_for_page` as a list indexed by page number. -/
def headerPass (pages : List (List Char)) : List (List Char) :=
  headerPassAux pages unknownChapter

/-! ### Index builder (build_vector_store.py, lines 97-151)

The embedding model is an opaque parameter `embed : List Char → V`
(`encode` maps it over a batch); the FAISS index is the list of vectors
added so far. -/

/-- Chunk metadata written by the builder (file / chapter / page). -/
structure BMeta where
  file : String
  chapter : List Char
  page : Nat
  deriving DecidableEq, Repr

/-- Mutable state of `main`'s build loop. -/
structure BuilderState (V : Type) where
  index : List V
  all_previews : List (List Char)
  all_meta : List BMeta
  batch_texts : List (List Char)
  batch_meta : List BMeta

/-- Initial builder state: empty index, arrays and batch. -/
def initState (V : Type) : BuilderState V := ⟨[], [], [], [], []⟩

/-- The preview stored for a chunk text: truncate to `PREVIEW_LEN`
characters, replace newlines by spaces (line 122). -/
def previewOf (t : List Char) : List Char :=
  (t.take PREVIEW_LEN).map (fun c => if c = '\n' then ' ' else c)

/-- The closure `flush_batch` (lines 108-125): encode the batch, add the vectors to
the index, append preview and metadata for each `zip`ped pair, clear the
batch. -/
def flush_batch {V : Type} (embed : List Char → V) (st : BuilderState V) :
    BuilderState V :=
  if st.batch_texts = [] then st
  else
    { index := st.index ++ st.batch_texts.map embed
      all_previews := st.all_previews ++
        (st.batch_texts.zip st.batch_meta).map (fun tm => previewOf tm.1)
      all_meta := st.all_meta ++
        (st.batch_texts.zip st.batch_meta).map (fun tm => tm.2)
      batch_texts := []
      batch_meta := [] }

/-- Body of the chunk loop (lines 133-142): append the chunk and its
metadata to the batch, flush when the batch threshold is reached. -/
def addChunk {V : Type} (embed : List Char → V) (m : BMeta) (st : BuilderState V)
    (ch : List Char) : BuilderState V :=
  let st2 := { st with batch_texts := st.batch_texts ++ [ch]
                       batch_meta := st.batch_meta ++ [m] }
  if BATCH_MAX_CHUNKS ≤ st2.batch_texts.length then flush_batch embed st2 else st2

/-- The chunks `main` draws from one page: `chunk_text_stream` at the
configured size/overlap, which terminates, run with ample fuel. -/
def pageChunks (t : List Char) : List (List Char) :=
  (chunk_text_stream t CHUNK_SIZE CHUNK_OVERLAP (t.length + 1)).out

/-- Per-page body of the build loop (lines 129-142): skip blank pages,
chunk the stripped text, accumulate each chunk with its metadata. -/
def processPage {V : Type} (embed : List Char → V) (fileName : String)
    (chapter : List Char) (pageNo : Nat) (pageText : List Char)
    (st : BuilderState V) : BuilderState V :=
  let t := pyStrip pageText
  if t = [] then st
  else (pageChunks t).foldl (addChunk embed ⟨fileName, chapter, pageNo + 1⟩) st

/-- Fold of the build loop over the pages paired with their headings and
0-based page numbers. -/
def buildLoop {V : Type} (embed : List Char → V) (fileName : String) :
    List ((List Char) × (List Char) × Nat) → BuilderState V → BuilderState V
  | [], st => st
  | (pt, ch, p) :: rest, st =>
    buildLoop embed fileName rest (processPage embed fileName ch p pt st)

/-- Pair each page with its detected heading and 0-based page index. -/
def pagesWithHeadings (pages : List (List Char)) :
    List ((List Char) × (List Char) × Nat) :=
  ((pages.zip (headerPass pages)).enum).map (fun x => (x.2.1, x.2.2, x.1))

/-- The script body `main` (lines 74-151), from the extracted page texts to the final
in-memory state: header pass, chunk/batch loop, final flush. -/
def buildMain {V : Type} (embed : List Char → V) (fileName : String)
    (pages : List (List Char)) : BuilderState V :=
  flush_batch embed (buildLoop embed fileName (pagesWithHeadings pages) (initState V))

/-! ### Retriever (app/rag_retriever.py)

The loaded FAISS index is an opaque type `Ix`; the filesystem supplies
`Option` contents for the two artifact paths; the embedder and the index
search are opaque parameters.  Distances are an opaque type `DD` (the
Python floats are only copied into hits, never computed with). -/

/-- The normalizer `_course_key(course)` (lines 16-17): strip, lower-case, spaces to
underscores. -/
def course_key (course : String) : String :=
  ⟨pyUnderscore (pyLower (pyStrip course.toList))⟩

/-- Root of the persisted collections, `scripts/data` under the app
directory. -/
def DATA_ROOT : String := "app/scripts/data"

/-- Index-file path from `_paths_for` (lines 19-22); note it normalizes
its argument again. -/
def indexPathFor (course : String) : String :=
  DATA_ROOT ++ "/" ++ course_key course ++ "/faiss.index"

/-- Metadata-file path from `_paths_for`. -/
def metaPathFor (course : String) : String :=
  DATA_ROOT ++ "/" ++ course_key course ++ "/index.pkl"

/-- One metadata dict as the retriever reads it: every field accessed via
`dict.get` with a default, so all fields are optional. -/
structure PMeta where
  fileField : Option String
  chapterField : Option String
  pageField : Option Int
  deriving DecidableEq, Repr

/-- Contents of a persisted `index.pkl`: parallel previews and metadata
arrays; an entry may be a falsy value (`m or {}` in the source), hence
`Option PMeta`. -/
structure MetaFile where
  previews : List (List Char)
  metadata : List (Option PMeta)
  deriving DecidableEq, Repr

/-- The filesystem visible to the retriever: optional contents at the
index path and at the metadata path. -/
structure FS (Ix : Type) where
  indexFile : String → Option Ix
  metaFile : String → Option MetaFile

/-- The in-process `_cache`: normalized key to (index, previews+meta). -/
def Cache (Ix : Type) := List (String × (Ix × MetaFile))

/-- The loader `_ensure_loaded(course)` (lines 24-37): return the cache unchanged on
a hit; otherwise require both artifact files, caching the loaded triple,
or fail with `FileNotFoundError` leaving the cache unchanged. -/
def ensure_loaded {Ix : Type} (fs : FS Ix) (cache : Cache Ix) (course : String) :
    Cache Ix × Option String :=
  let ck := course_key course
  match List.lookup ck cache with
  | some _ => (cache, none)
  | none =>
    match fs.indexFile (indexPathFor ck), fs.metaFile (metaPathFor ck) with
    | some ix, some mf => ((ck, (ix, mf)) :: cache, none)
    | _, _ => (cache, some ("Vector store not found for " ++ course))

/-- One retrieval hit (rank, preview text, provenance, distance). -/
structure Hit (DD : Type) where
  rank : Nat
  text : List Char
  fileOut : String
  chapterOut : String
  pageOut : Int
  distance : DD
  deriving DecidableEq, Repr

/-- The empty dict the source substitutes for a falsy metadata entry. -/
def emptyPMeta : PMeta := ⟨none, none, none⟩

/-- Build one hit from a rank, preview text, metadata entry and distance,
with the source's `dict.get` defaults (lines 48-57). -/
def mkHit {DD : Type} (rank : Nat) (text : List Char) (m : PMeta) (dist : DD) :
    Hit DD :=
  { rank := rank
    text := text
    fileOut := m.fileField.getD ""
    chapterOut := m.chapterField.getD "Unknown Chapter"
    pageOut := m.pageField.getD 0
    distance := dist }

/-- The result loop of `retrieve_context` (lines 44-57): enumerate the
(position, distance) pairs from rank 1; keep a pair only when the
position is within `[0, len(previews))`; `meta[idx]` out of range is a
Python `IndexError`, modelled as `none`. -/
def hitsLoop {DD : Type} (previews : List (List Char)) (meta : List (Option PMeta)) :
    List (Int × DD) → Nat → Option (List (Hit DD))
  | [], _ => some []
  | (idx, dist) :: rest, rank =>
    if 0 ≤ idx ∧ idx < (previews.length : Int) then
      match meta.get? idx.toNat with
      | none => none
      | some mo =>
        match hitsLoop previews meta rest (rank + 1) with
        | none => none
        | some hs =>
          some (mkHit rank (previews.getD idx.toNat []) (mo.getD emptyPMeta) dist :: hs)
    else hitsLoop previews meta rest (rank + 1)

/-- The hits built from the search output `I[0]`, `D[0]`. -/
def hitsOf {DD : Type} (previews : List (List Char)) (meta : List (Option PMeta))
    (pairs : List (Int × DD)) : Option (List (Hit DD)) :=
  hitsLoop previews meta pairs 1

/-- The entry point `retrieve_context(course, query, top_k)` (lines 39-58): ensure the
collection is loaded (propagating its failure), embed the query, search,
and build the ranked hits.  `embedQ` and `search` stand for the embedder
and `index.search`. -/
def retrieve_context {Ix Q DD : Type} (fs : FS Ix) (embedQ : String → Q)
    (search : Ix → Q → Nat → List Int × List DD) (cache : Cache Ix)
    (course query : String) (top_k : Nat) :
    Cache Ix × Except String (List (Hit DD)) :=
  match ensure_loaded fs cache course with
  | (cache2, some e) => (cache2, .error e)
  | (cache2, none) =>
    match List.lookup (course_key course) cache2 with
    | none => (cache2, .error "KeyError")
    | some (ix, mf) =>
      let sr := search ix (embedQ query) top_k
      match hitsOf mf.previews mf.metadata (sr.1.zip sr.2) with
      | none => (cache2, .error "IndexError")
      | some hs => (cache2, .ok hs)

/-! ### Chunker lemmas -/

/-- Reassembly of a chunk list: the first chunk whole, each later chunk
with its first `O` characters (the declared overlap) removed. -/
def glue (O : Nat) : List (List Char) → List Char
  | [] => []
  | c :: cs => c ++ (cs.map (List.drop O)).join

/-- The window list `chunk_text_stream`'s loop produces on a valid
configuration, in plain `Nat` arithmetic. -/
def natWindows (t : List Char) (S O : Nat) : Nat → Nat → List (List Char)
  | 0, _ => []
  | fuel + 1, start =>
    if start + S < t.length then
      (t.drop start).take S :: natWindows t S O fuel (start + S - O)
    else [(t.drop start).take S]

lemma length_dropWhile_le (p : Char → Bool) (l : List Char) :
    (l.dropWhile p).length ≤ l.length := by
  conv_rhs => rw [← List.takeWhile_append_dropWhile p l]
  rw [List.length_append]
  omega

lemma pyStrip_length_le (s : List Char) : (pyStrip s).length ≤ s.length := by
  unfold pyStrip
  rw [List.length_reverse]
  calc ((s.dropWhile isPySpace).reverse.dropWhile isPySpace).length
      ≤ (s.dropWhile isPySpace).reverse.length := length_dropWhile_le _ _
    _ = (s.dropWhile isPySpace).length := List.length_reverse _
    _ ≤ s.length := length_dropWhile_le _ _

lemma pySlice_natCast (t : List Char) (a b : Nat) (hab : a ≤ b) (hb : b ≤ t.length) :
    pySlice t (a : Int) (b : Int) = (t.drop a).take (b - a) := by
  unfold pySlice pyBound
  have h1 : ¬ ((a : Int) < 0) := by omega
  have h2 : ¬ ((b : Int) < 0) := by omega
  rw [if_neg h1, if_neg h2, Int.toNat_natCast, Int.toNat_natCast,
    Nat.min_eq_left (le_trans hab hb), Nat.min_eq_left hb]

/-- On a valid configuration the chunk loop finishes within its fuel and
produces exactly the `natWindows` list. -/
lemma chunkLoop_valid (t : List Char) (S O : Int) (hS : 0 < S) (hO : 0 ≤ O)
    (hOS : O < S) : ∀ (fuel start : Nat), start < t.length →
    t.length ≤ start + fuel →
    chunkLoop t S O fuel (start : Int) =
      ⟨natWindows t S.toNat O.toNat fuel start, true⟩ := by
  intro fuel
  induction fuel with
  | zero => intro start h1 h2; omega
  | succ fuel ih =>
    intro start h1 h2
    have hn : ((start : Int) < (t.length : Int)) := by exact_mod_cast h1
    simp only [chunkLoop, natWindows]
    rw [if_pos hn]
    by_cases hcase : start + S.toNat < t.length
    · have he : ¬ ((start : Int) + S > (t.length : Int)) := by omega
      rw [if_neg he, if_pos hcase]
      have hne : ¬ ((start : Int) + S = (t.length : Int)) := by omega
      rw [if_neg hne]
      have hguard : ¬ ((start : Int) + S - O < 0 ∨ (start : Int) + S - O ≥ (t.length : Int)) := by
        omega
      rw [if_neg hguard]
      have hcast : (start : Int) + S - O = ((start + S.toNat - O.toNat : Nat) : Int) := by
        omega
      rw [hcast, ih (start + S.toNat - O.toNat) (by omega) (by omega)]
      have hpiece : pySlice t (start : Int) ((start : Int) + S) = (t.drop start).take S.toNat := by
        have : ((start : Int) + S) = ((start + S.toNat : Nat) : Int) := by omega
        rw [this, pySlice_natCast t start (start + S.toNat) (by omega) (by omega)]
        congr 1
        omega
      rw [hpiece]
    · by_cases hgt : (start : Int) + S > (t.length : Int)
      · rw [if_pos hgt, if_pos rfl, if_neg hcase]
        have hpiece : pySlice t (start : Int) ((t.length : Nat) : Int) =
            (t.drop start).take (t.length - start) :=
          pySlice_natCast t start t.length (by omega) (by omega)
        rw [hpiece]
        have hd1 : (t.drop start).take (t.length - start) = t.drop start :=
          List.take_all_of_le (by rw [List.length_drop])
        have hd2 : (t.drop start).take S.toNat = t.drop start :=
          List.take_all_of_le (by rw [List.length_drop]; omega)
        rw [hd1, hd2]
      · have heq : (start : Int) + S = (t.length : Int) := by omega
        rw [if_neg hgt, if_pos heq, if_neg hcase]
        have : ((start : Int) + S) = ((start + S.toNat : Nat) : Int) := by omega
        rw [this, pySlice_natCast t start (start + S.toNat) (by omega) (by omega)]
        have hS2 : start + S.toNat - start = S.toNat := by omega
        rw [hS2]

lemma natWindows_head (t : List Char) (S O : Nat) (fuel start : Nat)
    (h1 : start < t.length) (h2 : t.length ≤ start + fuel) :
    ∃ rest, natWindows t S O fuel start = (t.drop start).take S :: rest := by
  cases fuel with
  | zero => omega
  | succ fuel =>
    simp only [natWindows]
    by_cases hcase : start + S < t.length
    · exact ⟨_, if_pos hcase⟩
    · exact ⟨[], if_neg hcase⟩

lemma natWindows_glue (t : List Char) (S O : Nat) (hS : 0 < S) (hOS : O < S) :
    ∀ (fuel start : Nat), start < t.length → t.length ≤ start + fuel →
    glue O (natWindows t S O fuel start) = t.drop start := by
  intro fuel
  induction fuel with
  | zero => intro start h1 h2; omega
  | succ fuel ih =>
    intro start h1 h2
    simp only [natWindows]
    by_cases hcase : start + S < t.length
    · rw [if_pos hcase]
      set start2 := start + S - O with hs2
      have h1' : start2 < t.length := by omega
      have h2' : t.length ≤ start2 + fuel := by omega
      obtain ⟨rest, hws⟩ := natWindows_head t S O fuel start2 h1' h2'
      have hih := ih start2 h1' h2'
      have hlen : O ≤ ((t.drop start2).take S).length := by
        rw [List.length_take, List.length_drop]
        omega
      have hjoin : ((natWindows t S O fuel start2).map (List.drop O)).join =
          List.drop O (t.drop start2) := by
        rw [← hih, hws]
        simp only [glue, List.map_cons, List.join_cons]
        rw [List.drop_append_of_le_length hlen]
      show (t.drop start).take S ++ ((natWindows t S O fuel start2).map (List.drop O)).join
          = t.drop start
      rw [hjoin, List.drop_drop]
      have hidx : start2 + O = start + S := by omega
      rw [hidx]
      have : t.drop (start + S) = (t.drop start).drop S := by
        rw [List.drop_drop]
      rw [this, List.take_append_drop]
    · rw [if_neg hcase]
      show (t.drop start).take S ++ (List.map (List.drop O) []).join = t.drop start
      rw [List.map_nil]
      show (t.drop start).take S ++ [] = t.drop start
      rw [List.append_nil]
      exact List.take_all_of_le (by rw [List.length_drop]; omega)

lemma natWindows_chain (t : List Char) (S O : Nat) (hS : 0 < S) (hOS : O < S) :
    ∀ (fuel start : Nat), start < t.length → t.length ≤ start + fuel →
    List.Chain' (fun a b => a.drop (a.length - O) = b.take O)
      (natWindows t S O fuel start) := by
  intro fuel
  induction fuel with
  | zero => intro start h1 h2; omega
  | succ fuel ih =>
    intro start h1 h2
    simp only [natWindows]
    by_cases hcase : start + S < t.length
    · rw [if_pos hcase]
      set start2 := start + S - O with hs2
      have h1' : start2 < t.length := by omega
      have h2' : t.length ≤ start2 + fuel := by omega
      obtain ⟨rest, hws⟩ := natWindows_head t S O fuel start2 h1' h2'
      rw [hws, List.chain'_cons]
      constructor
      · have hlen : ((t.drop start).take S).length = S := by
          rw [List.length_take, List.length_drop]
          omega
        rw [hlen, List.drop_take, List.take_take]
        have h3 : S - (S - O) = O := by omega
        have h4 : O ⊓ S = O := by omega
        rw [h3, h4, List.drop_drop]
        have h5 : start + (S - O) = start2 := by omega
        rw [h5]
      · rw [← hws]
        exact ih start2 h1' h2'
    · rw [if_neg hcase]
      exact List.chain'_singleton _

lemma chunk_stream_empty (txt : List Char) (S O : Int) (fuel : Nat)
    (h : pyStrip txt = []) : chunk_text_stream txt S O (fuel + 1) = ⟨[], true⟩ := by
  unfold chunk_text_stream
  by_cases hnil : txt = []
  · rw [if_pos hnil]
  · rw [if_neg hnil, h]
    simp [chunkLoop]

lemma chunk_stream_valid (txt : List Char) (S O : Int) (hS : 0 < S) (hOS : O < S)
    (hne : pyStrip txt ≠ []) :
    chunk_text_stream txt S O (txt.length + 1) =
      ⟨natWindows (pyStrip txt) S.toNat O.toNat (txt.length + 1) 0, true⟩ := by
  unfold chunk_text_stream
  have hnil : txt ≠ [] := by
    intro h
    exact hne (by rw [h]; rfl)
  rw [if_neg hnil]
  have hov : ∃ ov : Int, (if O < 0 then (0 : Int) else O) = ov ∧ 0 ≤ ov ∧ ov < S ∧
      ov.toNat = O.toNat := by
    refine ⟨if O < 0 then (0 : Int) else O, rfl, ?_, ?_, ?_⟩ <;>
      (split_ifs with h <;> omega)
  obtain ⟨ov, hov1, hov2, hov3, hov4⟩ := hov
  rw [hov1]
  have hpos : 0 < (pyStrip txt).length := List.length_pos.mpr hne
  have hfuel : (pyStrip txt).length ≤ 0 + (txt.length + 1) := by
    have := pyStrip_length_le txt
    omega
  have := chunkLoop_valid (pyStrip txt) S ov hS hov2 hov3 (txt.length + 1) 0 hpos hfuel
  rw [Nat.cast_zero] at this
  rw [this, hov4]

/-- Claim C2. For every text and every valid configuration
(`0 < chunk_size`, `0 ≤ overlap < chunk_size`), the generator finishes,
and concatenating the first chunk with every later chunk minus its first
`overlap` characters reconstructs exactly the text being chunked (the
input after the generator's own `strip()` — no character dropped, no
duplication beyond the declared overlap); a non-blank text of stripped
length at most `chunk_size` yields exactly one chunk, the whole stripped
text.  (Blank texts yield zero chunks; that degenerate case is C4.) -/
theorem chunk_coverage (txt : List Char) (S O : Int) (hS : 0 < S) (hO : 0 ≤ O)
    (hOS : O < S) :
    (chunk_text_stream txt S O (txt.length + 1)).done = true ∧
    glue O.toNat (chunk_text_stream txt S O (txt.length + 1)).out = pyStrip txt ∧
    (pyStrip txt ≠ [] → (pyStrip txt).length ≤ S.toNat →
      (chunk_text_stream txt S O (txt.length + 1)).out = [pyStrip txt]) := by
  by_cases hne : pyStrip txt = []
  · obtain ⟨fuel, hfuel⟩ : ∃ f, txt.length + 1 = f + 1 := ⟨txt.length, rfl⟩
    rw [hfuel, chunk_stream_empty txt S O fuel hne, hne]
    exact ⟨rfl, rfl, fun h _ => absurd rfl h⟩
  · rw [chunk_stream_valid txt S O hS hOS hne]
    have hpos : 0 < (pyStrip txt).length := List.length_pos.mpr hne
    have hfuel : (pyStrip txt).length ≤ 0 + (txt.length + 1) := by
      have := pyStrip_length_le txt
      omega
    refine ⟨rfl, ?_, ?_⟩
    · have := natWindows_glue (pyStrip txt) S.toNat O.toNat (by omega) (by omega)
        (txt.length + 1) 0 hpos hfuel
      rw [this, List.drop_zero]
    · intro _ hlen
      show natWindows (pyStrip txt) S.toNat O.toNat (txt.length + 1) 0 = [pyStrip txt]
      simp only [natWindows]
      rw [if_neg (by omega), List.drop_zero, List.take_all_of_le hlen]

/-- Witness for C2 at `txt = " hello "`, `S = 10`, `O = 2`. -/
theorem chunk_coverage_witness :
    (chunk_text_stream (" hello ".toList) 10 2 8).done = true ∧
    glue 2 (chunk_text_stream (" hello ".toList) 10 2 8).out =
      pyStrip (" hello ".toList) ∧
    (pyStrip (" hello ".toList) ≠ [] → (pyStrip (" hello ".toList)).length ≤ 10 →
      (chunk_text_stream (" hello ".toList) 10 2 8).out = [pyStrip (" hello ".toList)]) :=
  chunk_coverage (" hello ".toList) 10 2 (by decide) (by decide) (by decide)

/-- Claim C3 counterexample. The overlap is *not* clamped to
`chunk_size - 1`: on `"abcde"` with `chunk_size = 2`, `overlap = 3`
(`min(O, S-1) = 1`) the generator stops after the single chunk `"ab"`,
dropping `"cde"`, whereas the clamped overlap `1` yields
`["ab","bc","cd","de"]`; and with `overlap = chunk_size = 2` on `"abcd"`
the generator keeps yielding `"ab"` without terminating, so the first two
produced chunks share a suffix/prefix of length `min(O, S-1) = 1` that
disagrees (`"b" ≠ "a"`). -/
theorem overlap_not_clamped_cex :
    (chunk_text_stream ("abcde".toList) 2 3 50).out = [['a', 'b']] ∧
    (chunk_text_stream ("abcde".toList) 2 (min 3 (2 - 1)) 50).out =
      [['a', 'b'], ['b', 'c'], ['c', 'd'], ['d', 'e']] ∧
    (chunk_text_stream ("abcde".toList) 2 3 50).out ≠
      (chunk_text_stream ("abcde".toList) 2 (min 3 (2 - 1)) 50).out ∧
    (chunk_text_stream ("abcd".toList) 2 2 50).done = false ∧
    ((chunk_text_stream ("abcd".toList) 2 2 50).out.take 2 = [['a', 'b'], ['a', 'b']] ∧
      ¬ (['a', 'b'].drop (['a', 'b'].length - 1) = ['a', 'b'].take 1)) := by
  decide

/-- Claim C3 amended. `chunk_text_stream` never clamps its overlap (an
overlap ≥ `chunk_size` degenerates as in the counterexample); what holds
is: for every valid configuration `0 ≤ O < S` — where
`min(O, S-1) = O` — any two consecutive produced chunks share exactly
`O` characters: the last `O` characters of the earlier chunk equal the
first `O` characters of the later chunk. -/
theorem overlap_shared_amended (txt : List Char) (S O : Int) (hS : 0 < S)
    (hO : 0 ≤ O) (hOS : O < S) :
    List.Chain' (fun a b => a.drop (a.length - O.toNat) = b.take O.toNat)
      (chunk_text_stream txt S O (txt.length + 1)).out := by
  by_cases hne : pyStrip txt = []
  · obtain ⟨fuel, hfuel⟩ : ∃ f, txt.length + 1 = f + 1 := ⟨txt.length, rfl⟩
    rw [hfuel, chunk_stream_empty txt S O fuel hne]
    exact List.chain'_nil
  · rw [chunk_stream_valid txt S O hS hOS hne]
    have hpos : 0 < (pyStrip txt).length := List.length_pos.mpr hne
    have hfuel : (pyStrip txt).length ≤ 0 + (txt.length + 1) := by
      have := pyStrip_length_le txt
      omega
    exact natWindows_chain (pyStrip txt) S.toNat O.toNat (by omega) (by omega)
      (txt.length + 1) 0 hpos hfuel

/-- Witness for the amended C3 at `txt = "abcdef"`, `S = 3`, `O = 1`. -/
theorem overlap_shared_amended_witness :
    List.Chain' (fun a b => a.drop (a.length - 1) = b.take 1)
      (chunk_text_stream ("abcdef".toList) 3 1 7).out := by
  have h := overlap_shared_amended ("abcdef".toList) 3 1 (by decide) (by decide)
    (by decide)
  exact h

/-- With `size = 0`, `overlap = 0` the loop re-enters the same state
forever: it never finishes, for any amount of fuel. -/
lemma chunkLoop_size_zero_stuck :
    ∀ fuel : Nat, (chunkLoop ("abc".toList) 0 0 fuel 0).done = false := by
  intro fuel
  induction fuel with
  | zero => rfl
  | succ fuel ih =>
    simp only [chunkLoop]
    norm_num
    exact ih

/-- Claim C4 counterexample. `chunk_size ≤ 0` is not a defensive no-op
yielding zero chunks: with `chunk_size = 0`, `overlap = 1` on `"abc"` the
generator terminates after yielding exactly one chunk — the empty
string — not zero chunks. -/
theorem size_nonpos_not_noop_cex :
    chunk_text_stream ("abc".toList) 0 1 5 = ⟨[[]], true⟩ ∧
    ([[]] : List (List Char)) ≠ [] := by
  decide

/-- Claim C4 amended. `chunk_text_stream` terminates on every valid
configuration (`0 < chunk_size`, effective overlap < `chunk_size`), and
empty or whitespace-only text yields zero chunks under every
configuration; but `chunk_size ≤ 0` is unguarded rather than a defensive
no-op: with `chunk_size = 0` and `overlap = 1` on `"abc"` it yields one
empty chunk, and with `chunk_size = 0` and `overlap = 0` it never
terminates. -/
theorem chunker_termination_amended (txt : List Char) (S O : Int) :
    (0 < S → O < S → (chunk_text_stream txt S O (txt.length + 1)).done = true) ∧
    (pyStrip txt = [] → ∀ fuel : Nat, chunk_text_stream txt S O (fuel + 1) = ⟨[], true⟩) ∧
    ((chunk_text_stream ("abc".toList) 0 1 5).out = [[]] ∧
      ∀ fuel : Nat, (chunk_text_stream ("abc".toList) 0 0 fuel).done = false) := by
  refine ⟨?_, ?_, ?_, ?_⟩
  · intro hS hOS
    by_cases hne : pyStrip txt = []
    · obtain ⟨fuel, hfuel⟩ : ∃ f, txt.length + 1 = f + 1 := ⟨txt.length, rfl⟩
      rw [hfuel, chunk_stream_empty txt S O fuel hne]
    · rw [chunk_stream_valid txt S O hS hOS hne]
  · intro h fuel
    exact chunk_stream_empty txt S O fuel h
  · decide
  · intro fuel
    show (chunkLoop ("abc".toList) 0 0 fuel 0).done = false
    exact chunkLoop_size_zero_stuck fuel

/-- Witness for the amended C4: termination at `("xy", S=2, O=0)` and
zero chunks on the whitespace-only text `"  "`. -/
theorem chunker_termination_amended_witness :
    (0 < (2 : Int) → (0 : Int) < 2 →
      (chunk_text_stream ("xy".toList) 2 0 3).done = true) ∧
    (pyStrip ("  ".toList) = [] →
      ∀ fuel : Nat, chunk_text_stream ("  ".toList) 2 0 (fuel + 1) = ⟨[], true⟩) :=
  ⟨fun h1 h2 => (chunker_termination_amended ("xy".toList) 2 0).1 h1 h2,
   fun h => (chunker_termination_amended ("  ".toList) 2 0).2.1 h⟩

/-! ### Builder lemmas (C1, C9) -/

/-- The builder's alignment invariant: the batch arrays agree in length
and the three persisted parallel structures agree in length. -/
def Aligned {V : Type} (st : BuilderState V) : Prop :=
  st.batch_texts.length = st.batch_meta.length ∧
  st.index.length = st.all_previews.length ∧
  st.all_previews.length = st.all_meta.length

lemma aligned_init (V : Type) : Aligned (initState V) := ⟨rfl, rfl, rfl⟩

lemma flush_batch_lengths {V : Type} (embed : List Char → V) (st : BuilderState V)
    (h : st.batch_texts.length = st.batch_meta.length) :
    (flush_batch embed st).index.length = st.index.length + st.batch_texts.length ∧
    (flush_batch embed st).all_previews.length =
      st.all_previews.length + st.batch_texts.length ∧
    (flush_batch embed st).all_meta.length =
      st.all_meta.length + st.batch_texts.length ∧
    (flush_batch embed st).batch_texts = [] ∨
    (flush_batch embed st = st ∧ st.batch_texts = []) := by
  unfold flush_batch
  by_cases hb : st.batch_texts = []
  · rw [if_pos hb]
    exact Or.inr ⟨rfl, hb⟩
  · rw [if_neg hb]
    refine Or.inl ⟨?_, ?_, ?_, rfl⟩ <;>
      simp [List.length_zip, h]

lemma aligned_flush {V : Type} (embed : List Char → V) (st : BuilderState V)
    (h : Aligned st) : Aligned (flush_batch embed st) := by
  obtain ⟨h1, h2, h3⟩ := h
  unfold flush_batch
  by_cases hb : st.batch_texts = []
  · rw [if_pos hb]
    exact ⟨h1, h2, h3⟩
  · rw [if_neg hb]
    refine ⟨rfl, ?_, ?_⟩ <;>
      simp [List.length_zip, h1, h2, h3]

lemma aligned_addChunk {V : Type} (embed : List Char → V) (m : BMeta)
    (st : BuilderState V) (ch : List Char) (h : Aligned st) :
    Aligned (addChunk embed m st ch) := by
  obtain ⟨h1, h2, h3⟩ := h
  have h4 : Aligned { st with batch_texts := st.batch_texts ++ [ch]
                              batch_meta := st.batch_meta ++ [m] } := by
    refine ⟨?_, h2, h3⟩
    simp [h1]
  show Aligned (if BATCH_MAX_CHUNKS ≤
      ({ st with batch_texts := st.batch_texts ++ [ch]
                 batch_meta := st.batch_meta ++ [m] } : BuilderState V).batch_texts.length
    then flush_batch embed { st with batch_texts := st.batch_texts ++ [ch]
                                     batch_meta := st.batch_meta ++ [m] }
    else { st with batch_texts := st.batch_texts ++ [ch]
                   batch_meta := st.batch_meta ++ [m] })
  split_ifs
  · exact aligned_flush embed _ h4
  · exact h4

lemma aligned_foldl {V : Type} (embed : List Char → V) (m : BMeta)
    (l : List (List Char)) :
    ∀ st : BuilderState V, Aligned st → Aligned (l.foldl (addChunk embed m) st) := by
  induction l with
  | nil => intro st h; exact h
  | cons c cs ih =>
    intro st h
    exact ih _ (aligned_addChunk embed m st c h)

lemma aligned_processPage {V : Type} (embed : List Char → V) (fileName : String)
    (chapter : List Char) (pageNo : Nat) (pageText : List Char)
    (st : BuilderState V) (h : Aligned st) :
    Aligned (processPage embed fileName chapter pageNo pageText st) := by
  show Aligned (if pyStrip pageText = [] then st
    else (pageChunks (pyStrip pageText)).foldl
      (addChunk embed ⟨fileName, chapter, pageNo + 1⟩) st)
  split_ifs
  · exact h
  · exact aligned_foldl embed _ _ st h

lemma aligned_buildLoop {V : Type} (embed : List Char → V) (fileName : String)
    (l : List ((List Char) × (List Char) × Nat)) :
    ∀ st : BuilderState V, Aligned st → Aligned (buildLoop embed fileName l st) := by
  induction l with
  | nil => intro st h; exact h
  | cons p ps ih =>
    intro st h
    exact ih _ (aligned_processPage embed fileName p.2.1 p.2.2 p.1 st h)

lemma aligned_buildMain {V : Type} (embed : List Char → V) (fileName : String)
    (pages : List (List Char)) : Aligned (buildMain embed fileName pages) :=
  aligned_flush embed _
    (aligned_buildLoop embed fileName (pagesWithHeadings pages) (initState V)
      (aligned_init V))

/-- Claim C1. After a complete build over any page sequence the three
parallel structures are aligned — previews, metadata and index vectors
have one entry per chunk, in the same order — and every flush of a
length-matched batch appends exactly as many vectors to the index as
preview and metadata entries to the arrays. -/
theorem parallel_alignment {V : Type} (embed : List Char → V) (fileName : String)
    (pages : List (List Char)) :
    ((buildMain embed fileName pages).all_previews.length =
       (buildMain embed fileName pages).all_meta.length ∧
     (buildMain embed fileName pages).all_meta.length =
       (buildMain embed fileName pages).index.length) ∧
    (∀ st : BuilderState V, st.batch_texts.length = st.batch_meta.length →
      (flush_batch embed st).index.length = st.index.length + st.batch_texts.length ∧
      (flush_batch embed st).all_previews.length =
        st.all_previews.length + st.batch_texts.length ∧
      (flush_batch embed st).all_meta.length =
        st.all_meta.length + st.batch_texts.length) := by
  constructor
  · obtain ⟨h1, h2, h3⟩ := aligned_buildMain embed fileName pages
    exact ⟨h3, by omega⟩
  · intro st h
    rcases flush_batch_lengths embed st h with ⟨h1, h2, h3, _⟩ | ⟨heq, hnil⟩
    · exact ⟨h1, h2, h3⟩
    · rw [heq, hnil]
      exact ⟨by simp, by simp, by simp⟩

/-- Witness for C1 on a concrete one-page build. -/
theorem parallel_alignment_witness :
    (((buildMain (fun _ => ()) "anatomy.pdf" ["hello world".toList]).all_previews.length =
       (buildMain (fun _ => ()) "anatomy.pdf" ["hello world".toList]).all_meta.length) ∧
     (0 : Nat) = 0) ∧
    ((flush_batch (fun _ => ()) (initState Unit)).index.length =
      (initState Unit).index.length + (initState Unit).batch_texts.length) := by
  refine ⟨⟨?_, rfl⟩, ?_⟩
  · exact ((parallel_alignment (fun _ => ()) "anatomy.pdf"
      ["hello world".toList]).1).1
  · exact ((parallel_alignment (fun _ => ()) "anatomy.pdf"
      ["hello world".toList]).2 (initState Unit) rfl).1

/-- A well-formed stored preview: capped length and no newline. -/
def GoodPreview (pv : List Char) : Prop := pv.length ≤ PREVIEW_LEN ∧ '\n' ∉ pv

lemma goodPreview_previewOf (t : List Char) : GoodPreview (previewOf t) := by
  constructor
  · calc (previewOf t).length = (t.take PREVIEW_LEN).length := List.length_map _ _
      _ ≤ PREVIEW_LEN := by
          rw [List.length_take]
          omega
  · intro hmem
    obtain ⟨c, _, hc⟩ := List.mem_map.mp hmem
    by_cases hnl : c = '\n'
    · rw [if_pos hnl] at hc
      exact absurd hc (by decide)
    · rw [if_neg hnl] at hc
      exact hnl hc

/-- All previews stored so far are well formed. -/
def GoodPreviews {V : Type} (st : BuilderState V) : Prop :=
  ∀ pv ∈ st.all_previews, GoodPreview pv

lemma goodPreviews_flush {V : Type} (embed : List Char → V) (st : BuilderState V)
    (h : GoodPreviews st) : GoodPreviews (flush_batch embed st) := by
  unfold flush_batch
  split_ifs
  · exact h
  · intro pv hpv
    rcases List.mem_append.mp hpv with hold | hnew
    · exact h pv hold
    · obtain ⟨tm, _, htm⟩ := List.mem_map.mp hnew
      rw [← htm]
      exact goodPreview_previewOf tm.1

lemma goodPreviews_addChunk {V : Type} (embed : List Char → V) (m : BMeta)
    (st : BuilderState V) (ch : List Char) (h : GoodPreviews st) :
    GoodPreviews (addChunk embed m st ch) := by
  have h4 : GoodPreviews { st with batch_texts := st.batch_texts ++ [ch]
                                   batch_meta := st.batch_meta ++ [m] } := h
  show GoodPreviews (if BATCH_MAX_CHUNKS ≤
      ({ st with batch_texts := st.batch_texts ++ [ch]
                 batch_meta := st.batch_meta ++ [m] } : BuilderState V).batch_texts.length
    then flush_batch embed { st with batch_texts := st.batch_texts ++ [ch]
                                     batch_meta := st.batch_meta ++ [m] }
    else { st with batch_texts := st.batch_texts ++ [ch]
                   batch_meta := st.batch_meta ++ [m] })
  split_ifs
  · exact goodPreviews_flush embed _ h4
  · exact h4

lemma goodPreviews_foldl {V : Type} (embed : List Char → V) (m : BMeta)
    (l : List (List Char)) :
    ∀ st : BuilderState V, GoodPreviews st →
      GoodPreviews (l.foldl (addChunk embed m) st) := by
  induction l with
  | nil => intro st h; exact h
  | cons c cs ih =>
    intro st h
    exact ih _ (goodPreviews_addChunk embed m st c h)

lemma goodPreviews_processPage {V : Type} (embed : List Char → V)
    (fileName : String) (chapter : List Char) (pageNo : Nat) (pageText : List Char)
    (st : BuilderState V) (h : GoodPreviews st) :
    GoodPreviews (processPage embed fileName chapter pageNo pageText st) := by
  show GoodPreviews (if pyStrip pageText = [] then st
    else (pageChunks (pyStrip pageText)).foldl
      (addChunk embed ⟨fileName, chapter, pageNo + 1⟩) st)
  split_ifs
  · exact h
  · exact goodPreviews_foldl embed _ _ st h

lemma goodPreviews_buildLoop {V : Type} (embed : List Char → V) (fileName : String)
    (l : List ((List Char) × (List Char) × Nat)) :
    ∀ st : BuilderState V, GoodPreviews st →
      GoodPreviews (buildLoop embed fileName l st) := by
  induction l with
  | nil => intro st h; exact h
  | cons p ps ih =>
    intro st h
    exact ih _ (goodPreviews_processPage embed fileName p.2.1 p.2.2 p.1 st h)

/-- Claim C9. Every preview stored by the index builder — over any pages,
any embedding model, any batch schedule — has length at most the
configured `PREVIEW_LEN` and contains no newline character. -/
theorem preview_capped_no_newline {V : Type} (embed : List Char → V)
    (fileName : String) (pages : List (List Char)) (pv : List Char)
    (hmem : pv ∈ (buildMain embed fileName pages).all_previews) :
    pv.length ≤ PREVIEW_LEN ∧ '\n' ∉ pv := by
  have : GoodPreviews (buildMain embed fileName pages) :=
    goodPreviews_flush embed _
      (goodPreviews_buildLoop embed fileName (pagesWithHeadings pages) (initState V)
        (fun pv hpv => absurd hpv (List.not_mem_nil pv)))
  exact this pv hmem

/-- Witness for C9 on a concrete build: the stored preview of a one-page,
two-line document. -/
theorem preview_capped_no_newline_witness :
    ("hi there".toList ∈
      (buildMain (fun _ => ()) "anatomy.pdf" ["hi\nthere".toList]).all_previews) ∧
    ("hi there".toList.length ≤ PREVIEW_LEN ∧ '\n' ∉ "hi there".toList) :=
  ⟨by decide,
   preview_capped_no_newline (fun _ => ()) "anatomy.pdf" ["hi\nthere".toList]
     ("hi there".toList) (by decide)⟩

/-! ### Header-pass lemmas (C5) -/

lemma headerPassAux_get? :
    ∀ (ps : List (List Char)) (last : List Char) (i : Nat), i < ps.length →
    (headerPassAux ps last).get? i =
      some (((ps.take (i + 1)).reverse.findSome? pageCand).getD last) := by
  intro ps
  induction ps with
  | nil => intro last i h; exact absurd h (by simp)
  | cons p ps ih =>
    intro last i h
    cases i with
    | zero =>
      show some ((pageCand p).getD last) = _
      cases hc : pageCand p <;>
        simp [List.findSome?_cons, hc]
    | succ i =>
      have hlen : i < ps.length := by
        simp only [List.length_cons] at h
        omega
      show (headerPassAux ps ((pageCand p).getD last)).get? i = _
      rw [ih ((pageCand p).getD last) i hlen]
      have htake : ((p :: ps).take (i + 1 + 1)).reverse =
          (ps.take (i + 1)).reverse ++ [p] := by
        show (p :: ps.take (i + 1)).reverse = _
        rw [List.reverse_cons]
      rw [htake, List.findSome?_append]
      cases hf : (ps.take (i + 1)).reverse.findSome? pageCand <;>
        cases hc : pageCand p <;>
          simp [Option.or, hf, hc, List.findSome?_cons]

/-- Claim C5. For every page sequence, the heading recorded for page `i` is
the most recent header candidate among pages `0..i`, scanning each page's
lines top to bottom and carrying the last heading forward, with the
sentinel "Unknown Chapter" when no earlier page has any candidate; and
this decomposes as: page `i`'s own first candidate if it has one,
otherwise the last heading seen on an earlier page. -/
theorem header_carry_forward (pages : List (List Char)) (i : Nat)
    (h : i < pages.length) :
    (headerPass pages).get? i =
      some (((pages.take (i + 1)).reverse.findSome? pageCand).getD unknownChapter) ∧
    (pages.take (i + 1)).reverse.findSome? pageCand =
      (pageCand (pages.get ⟨i, h⟩)).or ((pages.take i).reverse.findSome? pageCand) := by
  constructor
  · exact headerPassAux_get? pages unknownChapter i h
  · have htake : pages.take (i + 1) = pages.take i ++ [pages.get ⟨i, h⟩] := by
      rw [List.take_succ]
      congr 1
      rw [List.getElem?_eq_getElem h]
      rfl
    rw [htake, List.reverse_append]
    show List.findSome? pageCand (pages.get ⟨i, h⟩ :: (pages.take i).reverse) = _
    simp only [List.get_eq_getElem]
    cases hc : pageCand pages[i] <;>
      simp [List.findSome?_cons, hc, Option.or]

/-- Witness for C5: a 3-page document whose only header "CHAPTER ONE" is
on page 1 labels page 3 (and so the chunks from it) "CHAPTER ONE". -/
theorem header_carry_forward_witness :
    (2 : Nat) < (["CHAPTER ONE\nIntro text".toList, "plain body page".toList,
        "closing page".toList] : List (List Char)).length ∧
    (headerPass ["CHAPTER ONE\nIntro text".toList, "plain body page".toList,
        "closing page".toList]).get? 2 = some ("CHAPTER ONE".toList) := by
  refine ⟨by decide, ?_⟩
  have h := (header_carry_forward ["CHAPTER ONE\nIntro text".toList,
    "plain body page".toList, "closing page".toList] 2 (by decide)).1
  rw [h]
  decide

/-! ### Retriever lemmas (C6, C7, C8) -/

/-- Claim C6. For every collection key not yet cached whose persisted index
file or metadata file is absent, `retrieve_context` fails with the
file-not-found error — it does not return an empty hit list — and the
in-process cache is left exactly as it was. -/
theorem missing_artifact_error {Ix Q DD : Type} (fs : FS Ix) (embedQ : String → Q)
    (search : Ix → Q → Nat → List Int × List DD) (cache : Cache Ix)
    (course query : String) (top_k : Nat)
    (hmiss : List.lookup (course_key course) cache = none)
    (habsent : fs.indexFile (indexPathFor (course_key course)) = none ∨
      fs.metaFile (metaPathFor (course_key course)) = none) :
    retrieve_context fs embedQ search cache course query top_k =
      (cache, Except.error ("Vector store not found for " ++ course)) := by
  unfold retrieve_context ensure_loaded
  rcases habsent with hia | hma
  · cases hmf : fs.metaFile (metaPathFor (course_key course)) <;>
      simp [hmiss, hia, hmf]
  · cases hif : fs.indexFile (indexPathFor (course_key course)) <;>
      simp [hmiss, hma, hif]

/-- Witness for C6: an empty filesystem, an empty cache. -/
theorem missing_artifact_error_witness :
    List.lookup (course_key "Nonexistent Course") ([] : Cache Unit) = none ∧
    ((⟨fun _ => none, fun _ => none⟩ : FS Unit).indexFile
        (indexPathFor (course_key "Nonexistent Course")) = none ∨
      (⟨fun _ => none, fun _ => none⟩ : FS Unit).metaFile
        (metaPathFor (course_key "Nonexistent Course")) = none) ∧
    retrieve_context (⟨fun _ => none, fun _ => none⟩ : FS Unit)
        ((fun _ => ()) : String → Unit)
        ((fun _ _ _ => ([], [])) : Unit → Unit → Nat → List Int × List Unit)
        [] "Nonexistent Course" "x" 3 =
      ([], Except.error ("Vector store not found for " ++ "Nonexistent Course")) :=
  ⟨rfl, Or.inl rfl,
   missing_artifact_error ⟨fun _ => none, fun _ => none⟩ (fun _ => ())
     (fun _ _ _ => ([], [])) [] "Nonexistent Course" "x" 3 rfl (Or.inl rfl)⟩

lemma hitsLoop_all_oob {DD : Type} (previews : List (List Char))
    (meta : List (Option PMeta)) :
    ∀ (ys : List (Int × DD)) (r : Nat),
    (∀ p ∈ ys, ¬ (0 ≤ p.1 ∧ p.1 < (previews.length : Int))) →
    hitsLoop previews meta ys r = some [] := by
  intro ys
  induction ys with
  | nil => intro r _; rfl
  | cons p rest ih =>
    intro r hall
    obtain ⟨idx, dist⟩ := p
    simp only [hitsLoop]
    rw [if_neg (hall (idx, dist) (List.mem_cons_self _ _))]
    exact ih (r + 1) (fun q hq => hall q (List.mem_cons_of_mem _ hq))

lemma hitsLoop_all_good {DD : Type} (previews : List (List Char))
    (meta : List (Option PMeta)) (hm : meta.length = previews.length) :
    ∀ (xs ys : List (Int × DD)) (r : Nat),
    (∀ p ∈ xs, 0 ≤ p.1 ∧ p.1 < (previews.length : Int)) →
    hitsLoop previews meta ys (r + xs.length) = some [] →
    ∃ hs, hitsLoop previews meta (xs ++ ys) r = some hs ∧
      hs.length = xs.length ∧ hs.map Hit.rank = List.range' r xs.length := by
  intro xs
  induction xs with
  | nil =>
    intro ys r _ hys
    simp only [List.length_nil, Nat.add_zero] at hys
    exact ⟨[], hys, rfl, rfl⟩
  | cons p rest ih =>
    intro ys r hall hys
    obtain ⟨idx, dist⟩ := p
    have hin := hall (idx, dist) (List.mem_cons_self _ _)
    obtain ⟨mo, hmo⟩ : ∃ mo, meta.get? idx.toNat = some mo := by
      cases hg : meta.get? idx.toNat with
      | none =>
        exfalso
        have := List.get?_eq_none.mp hg
        omega
      | some mo => exact ⟨mo, rfl⟩
    have hys' : hitsLoop previews meta ys ((r + 1) + rest.length) = some [] := by
      have harith : (r + 1) + rest.length = r + (rest.length + 1) := by omega
      rw [harith]
      simpa using hys
    obtain ⟨hs', hrun, hlen, hrank⟩ :=
      ih ys (r + 1) (fun q hq => hall q (List.mem_cons_of_mem _ hq)) hys'
    refine ⟨mkHit r (previews.getD idx.toNat []) (mo.getD emptyPMeta) dist :: hs',
      ?_, ?_, ?_⟩
    · simp only [List.cons_append, hitsLoop]
      rw [if_pos hin, hmo]
      simp only [List.append_eq]
      rw [hrun]
    · simp [hlen]
    · simp only [List.map_cons, hrank, List.length_cons]
      rw [List.range'_succ]
      rfl

/-- Claim C7. When the search returns `top_k = C + pad > C` candidate
positions for a collection of `C` chunks — the in-range results first,
then FAISS's `-1` padding — `retrieve_context`'s result loop emits
exactly `C` hits, carrying ranks `1..C`, and no error and no padding
entry appears. -/
theorem topk_larger_than_collection {DD : Type} (previews : List (List Char))
    (meta : List (Option PMeta)) (good : List Int) (d1 d2 : List DD) (pad : Nat)
    (hm : meta.length = previews.length) (hg : good.length = previews.length)
    (hd1 : d1.length = previews.length) (hpad : 0 < pad)
    (hin : ∀ v ∈ good, 0 ≤ v ∧ v < (previews.length : Int)) :
    ∃ hs, hitsOf previews meta
        ((good ++ List.replicate pad (-1)).zip (d1 ++ d2)) = some hs ∧
      hs.length = previews.length ∧
      hs.map Hit.rank = List.range' 1 previews.length := by
  have hzip : (good ++ List.replicate pad (-1)).zip (d1 ++ d2) =
      good.zip d1 ++ (List.replicate pad (-1)).zip d2 :=
    List.zip_append (by rw [hg, hd1])
  have hzlen : (good.zip d1).length = previews.length := by
    rw [List.length_zip, hg, hd1]
    exact Nat.min_self _
  have hgood : ∀ p ∈ good.zip d1, 0 ≤ p.1 ∧ p.1 < (previews.length : Int) := by
    intro p hp
    obtain ⟨a, b⟩ := p
    exact hin a (List.of_mem_zip hp).1
  have hbad : hitsLoop previews meta ((List.replicate pad (-1)).zip d2)
      (1 + (good.zip d1).length) = some [] := by
    apply hitsLoop_all_oob
    intro p hp
    obtain ⟨a, b⟩ := p
    have ha : a = -1 := (List.mem_replicate.mp (List.of_mem_zip hp).1).2
    rw [ha]
    intro hcon
    omega
  obtain ⟨hs, h1, h2, h3⟩ :=
    hitsLoop_all_good previews meta hm (good.zip d1) _ 1 hgood hbad
  rw [hitsOf, hzip]
  exact ⟨hs, h1, by rw [h2, hzlen], by rw [h3, hzlen]⟩

/-- Witness for C7: a 2-chunk collection queried with `top_k = 3`. -/
theorem topk_larger_than_collection_witness :
    (∀ v ∈ [(1 : Int), 0], 0 ≤ v ∧
      v < (([("aa".toList), ("bb".toList)] : List (List Char)).length : Int)) ∧
    (∃ hs, hitsOf [("aa".toList), ("bb".toList)] [some emptyPMeta, none]
        (([(1 : Int), 0] ++ List.replicate 1 (-1)).zip
          (([(3 : Int), 4] : List Int) ++ [9])) = some hs ∧
      hs.length = [("aa".toList), ("bb".toList)].length ∧
      hs.map Hit.rank = List.range' 1 [("aa".toList), ("bb".toList)].length) :=
  ⟨by decide,
   topk_larger_than_collection [("aa".toList), ("bb".toList)]
     [some emptyPMeta, none] [(1 : Int), 0] [(3 : Int), 4] [9] 1
     rfl rfl rfl (by decide) (by decide)⟩

lemma hitsLoop_filter {DD : Type} (previews : List (List Char))
    (meta : List (Option PMeta)) (hm : meta.length = previews.length) :
    ∀ (pairs : List (Int × DD)) (r : Nat),
    ∃ hs, hitsLoop previews meta pairs r = some hs ∧
      hs.length = (pairs.filter
        (fun p => decide (0 ≤ p.1 ∧ p.1 < (previews.length : Int)))).length ∧
      ∀ hh ∈ hs, r ≤ hh.rank ∧ ∃ e, pairs.get? (hh.rank - r) = some e ∧
        0 ≤ e.1 ∧ e.1 < (previews.length : Int) ∧
        hh.text = previews.getD e.1.toNat [] ∧ hh.distance = e.2 := by
  intro pairs
  induction pairs with
  | nil =>
    intro r
    exact ⟨[], rfl, rfl, fun hh h => absurd h (List.not_mem_nil hh)⟩
  | cons p rest ih =>
    intro r
    obtain ⟨idx, dist⟩ := p
    obtain ⟨hs', hrun, hlen, hmem⟩ := ih (r + 1)
    by_cases hin : 0 ≤ idx ∧ idx < (previews.length : Int)
    · obtain ⟨mo, hmo⟩ : ∃ mo, meta.get? idx.toNat = some mo := by
        cases hg : meta.get? idx.toNat with
        | none =>
          exfalso
          have := List.get?_eq_none.mp hg
          omega
        | some mo => exact ⟨mo, rfl⟩
      refine ⟨mkHit r (previews.getD idx.toNat []) (mo.getD emptyPMeta) dist :: hs',
        ?_, ?_, ?_⟩
      · simp only [hitsLoop]
        rw [if_pos hin, hmo, hrun]
      · rw [List.filter_cons]
        simp [hin, hlen]
      · intro hh hhmem
        rcases List.mem_cons.mp hhmem with heq | htail
        · subst heq
          refine ⟨le_refl r, (idx, dist), ?_, hin.1, hin.2, rfl, rfl⟩
          have hr : (mkHit r (previews.getD idx.toNat [])
              (mo.getD emptyPMeta) dist : Hit DD).rank = r := rfl
          rw [hr, Nat.sub_self]
          rfl
        · obtain ⟨h1, e, h2, h3, h4, h5, h6⟩ := hmem hh htail
          refine ⟨by omega, e, ?_, h3, h4, h5, h6⟩
          have harith : hh.rank - r = (hh.rank - (r + 1)) + 1 := by omega
          rw [harith]
          exact h2
    · refine ⟨hs', ?_, ?_, ?_⟩
      · simp only [hitsLoop]
        rw [if_neg hin]
        exact hrun
      · rw [List.filter_cons]
        simp [hin, hlen]
      · intro hh hhmem
        obtain ⟨h1, e, h2, h3, h4, h5, h6⟩ := hmem hh hhmem
        refine ⟨by omega, e, ?_, h3, h4, h5, h6⟩
        have harith : hh.rank - r = (hh.rank - (r + 1)) + 1 := by omega
        rw [harith]
        exact h2

/-- Claim C8. For every search output, the result loop of
`retrieve_context` raises no error and emits hits for exactly the
returned positions inside `[0, len(previews))`: the hit count equals the
count of in-bounds positions, and every emitted hit corresponds (at its
rank's slot) to an in-bounds position, whose preview and distance it
carries; out-of-bounds positions produce no hit.  (The metadata array is
as long as the preview array, as the builder persists them.) -/
theorem oob_positions_skipped {DD : Type} (previews : List (List Char))
    (meta : List (Option PMeta)) (pairs : List (Int × DD))
    (hm : meta.length = previews.length) :
    ∃ hs, hitsOf previews meta pairs = some hs ∧
      hs.length = (pairs.filter
        (fun p => decide (0 ≤ p.1 ∧ p.1 < (previews.length : Int)))).length ∧
      ∀ hh ∈ hs, 1 ≤ hh.rank ∧ ∃ e, pairs.get? (hh.rank - 1) = some e ∧
        0 ≤ e.1 ∧ e.1 < (previews.length : Int) ∧
        hh.text = previews.getD e.1.toNat [] ∧ hh.distance = e.2 :=
  hitsLoop_filter previews meta hm pairs 1

/-- Witness for C8: one in-bounds position among two out-of-bounds ones. -/
theorem oob_positions_skipped_witness :
    ([some emptyPMeta] : List (Option PMeta)).length =
      ([("aa".toList)] : List (List Char)).length ∧
    (∃ hs, hitsOf [("aa".toList)] [some emptyPMeta]
        ([((0 : Int), (3 : Int)), (5, 4), (-1, 7)]) = some hs ∧
      hs.length = ([((0 : Int), (3 : Int)), (5, 4), (-1, 7)].filter
        (fun p => decide (0 ≤ p.1 ∧
          p.1 < (([("aa".toList)] : List (List Char)).length : Int)))).length ∧
      ∀ hh ∈ hs, 1 ≤ hh.rank ∧
        ∃ e, [((0 : Int), (3 : Int)), (5, 4), (-1, 7)].get? (hh.rank - 1) = some e ∧
          0 ≤ e.1 ∧ e.1 < (([("aa".toList)] : List (List Char)).length : Int) ∧
          hh.text = [("aa".toList)].getD e.1.toNat [] ∧ hh.distance = e.2) :=
  ⟨rfl, oob_positions_skipped [("aa".toList)] [some emptyPMeta]
    [((0 : Int), (3 : Int)), (5, 4), (-1, 7)] rfl⟩

/-! ### Key-normalization lemmas (C10) -/

lemma char_ofNat_toNat (n : Nat) (h : n < 55296) : (Char.ofNat n).toNat = n := by
  unfold Char.ofNat
  rw [dif_pos (Or.inl h)]
  rfl

lemma pyLowerChar_idem (c : Char) : pyLowerChar (pyLowerChar c) = pyLowerChar c := by
  unfold pyLowerChar
  by_cases h : c.toNat ≥ 65 ∧ c.toNat ≤ 90
  · rw [if_pos h]
    have hv : (Char.ofNat (c.toNat + 32)).toNat = c.toNat + 32 :=
      char_ofNat_toNat _ (by omega)
    rw [if_neg (by rw [hv]; omega)]
  · rw [if_neg h, if_neg h]

lemma isPySpace_iff (c : Char) : isPySpace c = true ↔
    (c.toNat = 32 ∨ c.toNat = 9 ∨ c.toNat = 10 ∨ c.toNat = 11 ∨
      c.toNat = 12 ∨ c.toNat = 13) := by
  unfold isPySpace
  simp [Bool.or_eq_true, decide_eq_true_iff, or_assoc]

lemma isPySpace_false_iff (c : Char) : isPySpace c = false ↔
    ¬ (c.toNat = 32 ∨ c.toNat = 9 ∨ c.toNat = 10 ∨ c.toNat = 11 ∨
      c.toNat = 12 ∨ c.toNat = 13) := by
  rw [← Bool.not_eq_true, isPySpace_iff]

lemma pyLowerChar_not_space (c : Char) (h : isPySpace c = false) :
    isPySpace (pyLowerChar c) = false := by
  rw [isPySpace_false_iff] at h ⊢
  unfold pyLowerChar
  split_ifs with hc
  · have hv : (Char.ofNat (c.toNat + 32)).toNat = c.toNat + 32 :=
      char_ofNat_toNat _ (by omega)
    rw [hv]
    omega
  · exact h

/-- The per-character action of `_course_key` after the strip: lower-case,
then space to underscore. -/
def keyChar (c : Char) : Char :=
  if pyLowerChar c = ' ' then '_' else pyLowerChar c

lemma pyUnderscore_pyLower (l : List Char) :
    pyUnderscore (pyLower l) = l.map keyChar := by
  unfold pyUnderscore pyLower keyChar
  rw [List.map_map]
  rfl

lemma keyChar_not_space (c : Char) (h : isPySpace c = false) :
    isPySpace (keyChar c) = false := by
  unfold keyChar
  split_ifs with hc
  · decide
  · exact pyLowerChar_not_space c h

lemma keyChar_idem (c : Char) : keyChar (keyChar c) = keyChar c := by
  unfold keyChar
  by_cases hc : pyLowerChar c = ' '
  · rw [if_pos hc]
    decide
  · rw [if_neg hc, pyLowerChar_idem, if_neg hc]

lemma dropWhile_head_false (p : Char → Bool) (l : List Char)
    (h : ∀ c, l.head? = some c → p c = false) : l.dropWhile p = l := by
  cases l with
  | nil => rfl
  | cons a l =>
    rw [List.dropWhile_cons, h a rfl]
    simp

lemma dropWhile_head?_false (p : Char → Bool) :
    ∀ (l : List Char) (c : Char), (l.dropWhile p).head? = some c → p c = false := by
  intro l
  induction l with
  | nil => intro c h; cases h
  | cons a l ih =>
    intro c h
    rw [List.dropWhile_cons] at h
    by_cases ha : p a = true
    · rw [if_pos ha] at h
      exact ih c h
    · rw [if_neg ha] at h
      cases h
      exact Bool.not_eq_true _ |>.mp ha

lemma dropWhile_getLast? (p : Char → Bool) (l : List Char)
    (h : l.dropWhile p ≠ []) : (l.dropWhile p).getLast? = l.getLast? := by
  conv_rhs => rw [← List.takeWhile_append_dropWhile p l]
  rw [List.getLast?_append]
  cases hg : (l.dropWhile p).getLast? with
  | none => exact absurd (List.getLast?_eq_none.mp hg) h
  | some c => rfl

lemma pyStrip_eq_self (l : List Char)
    (h1 : ∀ c, l.head? = some c → isPySpace c = false)
    (h2 : ∀ c, l.getLast? = some c → isPySpace c = false) : pyStrip l = l := by
  unfold pyStrip
  rw [dropWhile_head_false _ _ h1]
  rw [dropWhile_head_false _ _ (by rw [List.head?_reverse]; exact h2)]
  exact List.reverse_reverse l

lemma pyStrip_head (s : List Char) :
    ∀ c, (pyStrip s).head? = some c → isPySpace c = false := by
  intro c h
  unfold pyStrip at h
  rw [List.head?_reverse] at h
  by_cases hz : ((s.dropWhile isPySpace).reverse.dropWhile isPySpace) = []
  · rw [hz] at h
    cases h
  · rw [dropWhile_getLast? _ _ hz, List.getLast?_reverse] at h
    exact dropWhile_head?_false isPySpace s c h

lemma pyStrip_getLast (s : List Char) :
    ∀ c, (pyStrip s).getLast? = some c → isPySpace c = false := by
  intro c h
  unfold pyStrip at h
  rw [List.getLast?_reverse] at h
  exact dropWhile_head?_false isPySpace _ c h

lemma pyStrip_map_keyChar_pyStrip (l : List Char) :
    pyStrip ((pyStrip l).map keyChar) = (pyStrip l).map keyChar := by
  apply pyStrip_eq_self
  · intro c h
    rw [List.head?_map] at h
    cases hh : (pyStrip l).head? with
    | none => rw [hh] at h; cases h
    | some d =>
      rw [hh] at h
      cases h
      exact keyChar_not_space d (pyStrip_head l d hh)
  · intro c h
    rw [List.getLast?_map] at h
    cases hh : (pyStrip l).getLast? with
    | none => rw [hh] at h; cases h
    | some d =>
      rw [hh] at h
      cases h
      exact keyChar_not_space d (pyStrip_getLast l d hh)

/-- Claim C10. Collection-key normalization is idempotent —
`_course_key(_course_key(c)) = _course_key(c)` for every string — and
consequently a successful `_ensure_loaded` always leaves the collection
findable in the cache under the key `retrieve_context` re-computes. -/
theorem course_key_idempotent_cache_consistent :
    (∀ course : String, course_key (course_key course) = course_key course) ∧
    (∀ (Ix : Type) (fs : FS Ix) (cache : Cache Ix) (course : String),
      (ensure_loaded fs cache course).2 = none →
      (List.lookup (course_key course) (ensure_loaded fs cache course).1).isSome
        = true) := by
  constructor
  · intro course
    apply String.ext
    show pyUnderscore (pyLower (pyStrip (course_key course).toList)) =
      pyUnderscore (pyLower (pyStrip course.toList))
    have hck : (course_key course).toList =
        pyUnderscore (pyLower (pyStrip course.toList)) := rfl
    rw [hck, pyUnderscore_pyLower, pyUnderscore_pyLower,
      pyStrip_map_keyChar_pyStrip, List.map_map]
    exact List.map_congr_left (fun c _ => keyChar_idem c)
  · intro Ix fs cache course h
    unfold ensure_loaded at h ⊢
    cases hlk : List.lookup (course_key course) cache with
    | some v => simp [hlk]
    | none =>
      cases hif : fs.indexFile (indexPathFor (course_key course)) with
      | none => simp [hlk, hif] at h
      | some ix =>
        cases hmf : fs.metaFile (metaPathFor (course_key course)) with
        | none => simp [hlk, hif, hmf] at h
        | some mf => simp [hlk, hif, hmf, List.lookup]

/-- Witness for C10: idempotence at a concrete course name, and a
concrete successful load found in the cache. -/
theorem course_key_idempotent_cache_consistent_witness :
    course_key (course_key " Human Anatomy I ") = course_key " Human Anatomy I " ∧
    ((ensure_loaded (⟨fun _ => some (), fun _ => some ⟨[], []⟩⟩ : FS Unit)
        [] "Anatomy").2 = none ∧
      (List.lookup (course_key "Anatomy")
        (ensure_loaded (⟨fun _ => some (), fun _ => some ⟨[], []⟩⟩ : FS Unit)
          [] "Anatomy").1).isSome = true) :=
  ⟨course_key_idempotent_cache_consistent.1 " Human Anatomy I ",
   rfl,
   course_key_idempotent_cache_consistent.2 Unit
     ⟨fun _ => some (), fun _ => some ⟨[], []⟩⟩ [] "Anatomy" rfl⟩

end StudyPlanner
